import Mathlib

/-!
Shallow embedding of `s3rmdir.go`: a CLI that lists every object version and
delete marker under a key scope in a versioned S3 bucket and deletes them in
bounded-size batches.

The Go source is embedded as follows:
* `objectVersion`, `deleteBatchResult` mirror the two struct types.
* `deleteVersion` mirrors the `deleteVersion` closure in `main` (scope check,
  append to the open batch, `numObjects++`, seal the batch when it reaches
  `batchSize`); a `log.Fatalf` call is modelled as `Except.error`.
* `runListing` folds `deleteVersion` over the listed entries; `emittedBatches`
  adds the final flush (`if len(batch) > 0` dispatch).
* `deleteObjectVersions` mirrors the worker function of the same name; the
  S3 `DeleteObjects` call is an external collaborator passed as `api`.
* `aggregate` mirrors the aggregator goroutine (`numProcessed += r.BatchSize;
  numErrors += r.ErrorCount` over received results).
* `normalizePfx`/`mainSetup` mirror the flag handling at the top of `main`
  (`strings.Trim(*fPrefix, "/")` then re-append `"/"` when non-empty; the
  bucket and batch-size checks).
* `runMain` chains setup-free listing, flush and dispatch into one run.
-/

/-- Go struct `objectVersion { Key, VersionId string }`. -/
structure objectVersion where
  Key : String
  VersionId : String
deriving DecidableEq, Repr

/-- Go struct `deleteBatchResult { BatchSize, ErrorCount int }`. Both fields
are list lengths in the source, hence `Nat`. -/
structure deleteBatchResult where
  BatchSize : Nat
  ErrorCount : Nat
deriving DecidableEq, Repr

/-- Go struct `types.ObjectIdentifier` as used by the source (key and
version id). -/
structure ObjectIdentifier where
  Key : String
  VersionId : String
deriving DecidableEq, Repr

/-- Go struct `types.Delete`: the object list plus the `Quiet` flag. -/
structure DeleteParam where
  Objects : List ObjectIdentifier
  Quiet : Bool
deriving DecidableEq, Repr

/-- The request body built by `deleteObjectVersions` (lines 35-44): one
identifier per entry, in order, with `Quiet: true`. -/
def buildDeleteParam (objectVersions : List objectVersion) : DeleteParam :=
  { Objects := objectVersions.map fun v => { Key := v.Key, VersionId := v.VersionId }
    Quiet := true }

/-- Go `deleteObjectVersions` (lines 29-57): build the request, issue exactly
one `DeleteObjects` call (the collaborator `api`), abort fatally on a
transport error (`log.Fatalf`, modelled `Except.error`), otherwise send one
`deleteBatchResult` with the batch length and the length of the response's
error list. -/
def deleteObjectVersions (api : DeleteParam → Except String (List String))
    (objectVersions : List objectVersion) : Except String deleteBatchResult :=
  match api (buildDeleteParam objectVersions) with
  | .error e => .error ("failed to delete objects: " ++ e)
  | .ok respErrors =>
      .ok { BatchSize := objectVersions.length, ErrorCount := respErrors.length }

/-- The mutable state threaded through `main`'s listing loop: the open
`batch` slice, the `numObjects` counter, and (for the embedding) the ordered
list of batches handed to `go deleteObjectVersions` so far. -/
structure AccState where
  batch : List objectVersion
  numObjects : Nat
  emitted : List (List objectVersion)
deriving DecidableEq, Repr

/-- Initial state at line 96-98: empty batch, zero objects, nothing
dispatched. -/
def initAcc : AccState := { batch := [], numObjects := 0, emitted := [] }

/-- The body of the `deleteVersion` closure after the scope check passed
(lines 120-129): append the entry, bump `numObjects`, and if the batch length
now equals `batchSize`, dispatch it and open a fresh batch. -/
def observeOk (batchSize : Nat) (s : AccState) (v : objectVersion) : AccState :=
  let b := s.batch ++ [v]
  if b.length = batchSize then
    { batch := [], numObjects := s.numObjects + 1, emitted := s.emitted ++ [b] }
  else
    { batch := b, numObjects := s.numObjects + 1, emitted := s.emitted }

/-- Go `strings.HasPrefix(s, pre)`, modelled on the character sequences of
the two strings (for valid strings the byte-level prefix test of the Go
standard library agrees with the character-level one, UTF-8 being a prefix
code). -/
def hasPfx (s pre : String) : Bool := pre.data.isPrefixOf s.data

/-- The `deleteVersion` closure (lines 116-130): fatal scope violation when a
non-empty normalized key scope was requested and the key does not start with
it; otherwise the accumulator step. -/
def deleteVersion (batchSize : Nat) (pfx : String) (s : AccState)
    (v : objectVersion) : Except String AccState :=
  if pfx ≠ "" ∧ hasPfx v.Key pfx = false then
    .error ("encountered object without requested prefix: " ++ v.Key)
  else
    .ok (observeOk batchSize s v)

/-- One page of `ListObjectVersions` output: the `Versions` and
`DeleteMarkers` slices. -/
structure Page where
  Versions : List objectVersion
  DeleteMarkers : List objectVersion
deriving DecidableEq, Repr

/-- The order in which the listing loop (lines 111-137) feeds entries to
`deleteVersion`: page by page, all versions first, then all delete markers. -/
def listingOrder (pages : List Page) : List objectVersion :=
  (pages.map fun pg => pg.Versions ++ pg.DeleteMarkers).flatten

/-- The listing loop folded over an entry sequence: each entry goes through
`deleteVersion`; a fatal error short-circuits the run. -/
def runListing (batchSize : Nat) (pfx : String)
    (entries : List objectVersion) : Except String AccState :=
  entries.foldlM (deleteVersion batchSize pfx) initAcc

/-- All batches dispatched over a whole run, in dispatch order: the batches
sealed during listing plus the final flush (lines 138-141: `if len(batch) > 0`
dispatch the remainder). -/
def emittedBatches (batchSize : Nat) (pfx : String)
    (entries : List objectVersion) : Except String (List (List objectVersion)) :=
  (runListing batchSize pfx entries).map fun s =>
    if 0 < s.batch.length then s.emitted ++ [s.batch] else s.emitted

/-- Run the delete worker once per dispatched batch, collecting the batch
results (a transport error from any worker is fatal for the run). -/
def dispatchAll (api : DeleteParam → Except String (List String)) :
    List (List objectVersion) → Except String (List deleteBatchResult)
  | [] => .ok []
  | b :: bs =>
      match deleteObjectVersions api b, dispatchAll api bs with
      | .error e, _ => .error e
      | .ok _, .error e => .error e
      | .ok r, .ok rs => .ok (r :: rs)

/-- The aggregator goroutine (lines 100-109): starting from
`numProcessed = 0, numErrors = 0`, add `BatchSize` and `ErrorCount` of each
received result in arrival order. -/
def aggregate (results : List deleteBatchResult) : Nat × Nat :=
  results.foldl (fun t r => (t.1 + r.BatchSize, t.2 + r.ErrorCount)) (0, 0)

/-- Number of per-item errors the collaborator reports for a given batch's
request (`len(result.Errors)` when the call completes). -/
def itemErrors (api : DeleteParam → Except String (List String))
    (b : List objectVersion) : Nat :=
  match api (buildDeleteParam b) with
  | .ok respErrors => respErrors.length
  | .error _ => 0

/-- `strings.Trim(p, "/")` for the single-character cutset: drop every
leading and every trailing `'/'`. -/
def trimSlashes (s : List Char) : List Char :=
  (((s.dropWhile fun c => c = '/').reverse.dropWhile fun c => c = '/')).reverse

/-- Lines 67-70 of `main`: trim `'/'` from both ends of the `-prefix` flag
value, then re-append a single `"/"` when the result is non-empty. -/
def normalizePfx (p : String) : String :=
  let t := trimSlashes p.data
  if t = [] then "" else String.mk (t ++ ['/'])

/-- `math.MaxInt` on a 64-bit platform (Go `int` is 64-bit there). -/
def goMaxInt : Nat := 2 ^ 63 - 1

/-- The four CLI flag values after parsing (`-prefix`, `-bucket`, `-batch`,
`-region`); `-batch` is a Go `uint`. -/
structure Config where
  fPfxFlag : String
  fBucket : String
  fBatchSize : Nat
  fRegion : String
deriving DecidableEq, Repr

/-- Lines 67-78 of `main`: normalize the key scope, reject a missing bucket
(usage + exit 1), reject a batch size above `math.MaxInt` (fatal), and
otherwise hand the normalized scope and batch size to the run. -/
def mainSetup (cfg : Config) : Except String (String × Nat) :=
  let pfx := normalizePfx cfg.fPfxFlag
  if cfg.fBucket = "" then .error "usage"
  else if goMaxInt < cfg.fBatchSize then .error "illegal batch size"
  else .ok (pfx, cfg.fBatchSize)

/-- Everything observable about a run that finished without a fatal error. -/
structure RunResult where
  batches : List (List objectVersion)
  results : List deleteBatchResult
  numObjects : Nat
  finalLine : String
deriving DecidableEq, Repr

/-- One whole run after setup: list all pages in listing order through the
accumulator, flush the remainder, run one delete worker per dispatched batch,
and print the grand total from the orchestrator's own `numObjects` counter
(line 143). -/
def runMain (api : DeleteParam → Except String (List String)) (batchSize : Nat)
    (pfx : String) (pages : List Page) : Except String RunResult :=
  match runListing batchSize pfx (listingOrder pages) with
  | .error e => .error e
  | .ok s =>
      let bs := if 0 < s.batch.length then s.emitted ++ [s.batch] else s.emitted
      match dispatchAll api bs with
      | .error e => .error e
      | .ok rs =>
          .ok { batches := bs, results := rs, numObjects := s.numObjects
                finalLine := "total number of objects: " ++ toString s.numObjects }

/-- The whole program: flag handling, then the run. -/
def s3rmdir (api : DeleteParam → Except String (List String)) (cfg : Config)
    (pages : List Page) : Except String RunResult :=
  match mainSetup cfg with
  | .error e => .error e
  | .ok (pfx, batchSize) => runMain api batchSize pfx pages

/-- A sample entry used by witness statements. -/
def va : objectVersion := { Key := "logs/a", VersionId := "1" }

/-- A second sample entry used by witness statements. -/
def vb : objectVersion := { Key := "logs/a", VersionId := "2" }

/-- A third sample entry used by witness statements. -/
def vc : objectVersion := { Key := "logs/b", VersionId := "1" }

/-- A collaborator that always completes and reports no per-item errors. -/
def apiNoErrors : DeleteParam → Except String (List String) := fun _ => .ok []

section AccumulatorLemmas

lemma deleteVersion_ok_of_pass (batchSize : Nat) (pfx : String) (s : AccState)
    (v : objectVersion) (h : pfx = "" ∨ hasPfx v.Key pfx = true) :
    deleteVersion batchSize pfx s v = .ok (observeOk batchSize s v) := by
  unfold deleteVersion
  rcases h with h | h
  · simp [h]
  · simp [h]

lemma step_of_foldlM_ok (batchSize : Nat) (pfx : String) (s s' : AccState)
    (v : objectVersion) (l : List objectVersion)
    (h : (v :: l).foldlM (deleteVersion batchSize pfx) s = .ok s') :
    deleteVersion batchSize pfx s v = .ok (observeOk batchSize s v) ∧
      l.foldlM (deleteVersion batchSize pfx) (observeOk batchSize s v) = .ok s' := by
  rw [List.foldlM_cons] at h
  unfold deleteVersion at h ⊢
  by_cases hc : pfx ≠ "" ∧ hasPfx v.Key pfx = false
  · rw [if_pos hc] at h
    exact absurd h (by simp [Bind.bind, Except.bind])
  · rw [if_neg hc] at h ⊢
    exact ⟨rfl, h⟩

lemma foldlM_deleteVersion_flatten (batchSize : Nat) (pfx : String) :
    ∀ (l : List objectVersion) (s s' : AccState),
      l.foldlM (deleteVersion batchSize pfx) s = .ok s' →
      s'.emitted.flatten ++ s'.batch = s.emitted.flatten ++ s.batch ++ l ∧
        s'.numObjects = s.numObjects + l.length
  | [], s, s', h => by
      cases h
      simp
  | v :: l, s, s', h => by
      obtain ⟨-, hrest⟩ := step_of_foldlM_ok batchSize pfx s s' v l h
      obtain ⟨h1, h2⟩ := foldlM_deleteVersion_flatten batchSize pfx l _ s' hrest
      by_cases hfull : (s.batch ++ [v]).length = batchSize
      · have hstep : observeOk batchSize s v =
            { batch := [], numObjects := s.numObjects + 1,
              emitted := s.emitted ++ [s.batch ++ [v]] } := by
          unfold observeOk
          simp [hfull]
        rw [hstep] at h1 h2
        refine ⟨?_, ?_⟩
        · rw [h1]
          simp
        · rw [h2]
          simp [Nat.add_comm, Nat.add_assoc, Nat.add_left_comm]
      · have hb1 : ¬s.batch.length + 1 = batchSize := by simpa using hfull
        have hstep : observeOk batchSize s v =
            { batch := s.batch ++ [v], numObjects := s.numObjects + 1,
              emitted := s.emitted } := by
          unfold observeOk
          simp [hb1]
        rw [hstep] at h1 h2
        refine ⟨?_, ?_⟩
        · rw [h1]
          simp
        · rw [h2]
          simp [Nat.add_comm, Nat.add_assoc, Nat.add_left_comm]

lemma foldlM_deleteVersion_sizes (batchSize : Nat) (hC : 0 < batchSize) (pfx : String) :
    ∀ (l : List objectVersion) (s s' : AccState),
      l.foldlM (deleteVersion batchSize pfx) s = .ok s' →
      s.batch.length < batchSize → (∀ b ∈ s.emitted, b.length = batchSize) →
      s'.batch.length < batchSize ∧ (∀ b ∈ s'.emitted, b.length = batchSize) ∧
        s'.emitted.length * batchSize + s'.batch.length =
          s.emitted.length * batchSize + s.batch.length + l.length
  | [], s, s', h, hb, he => by
      cases h
      exact ⟨hb, he, by simp⟩
  | v :: l, s, s', h, hb, he => by
      obtain ⟨-, hrest⟩ := step_of_foldlM_ok batchSize pfx s s' v l h
      by_cases hfull : (s.batch ++ [v]).length = batchSize
      · have hstep : observeOk batchSize s v =
            { batch := [], numObjects := s.numObjects + 1,
              emitted := s.emitted ++ [s.batch ++ [v]] } := by
          unfold observeOk
          simp [hfull]
        rw [hstep] at hrest
        obtain ⟨h1, h2, h3⟩ := foldlM_deleteVersion_sizes batchSize hC pfx l _ s' hrest
          (by simpa using hC)
          (by
            intro b hbmem
            rcases List.mem_append.mp hbmem with hbmem | hbmem
            · exact he b hbmem
            · simp only [List.mem_singleton] at hbmem
              rw [hbmem]
              exact hfull)
        refine ⟨h1, h2, ?_⟩
        have hb1 : s.batch.length + 1 = batchSize := by simpa using hfull
        have h3' : s'.emitted.length * batchSize + s'.batch.length =
            (s.emitted.length + 1) * batchSize + l.length := by simpa using h3
        have hmul : (s.emitted.length + 1) * batchSize =
            s.emitted.length * batchSize + batchSize := Nat.succ_mul _ _
        have hlen : (v :: l).length = l.length + 1 := by simp
        omega
      · have hb1 : ¬s.batch.length + 1 = batchSize := by simpa using hfull
        have hstep : observeOk batchSize s v =
            { batch := s.batch ++ [v], numObjects := s.numObjects + 1,
              emitted := s.emitted } := by
          unfold observeOk
          simp [hb1]
        rw [hstep] at hrest
        have hlt : (s.batch ++ [v]).length < batchSize := by
          simp only [List.length_append, List.length_singleton]
          omega
        obtain ⟨h1, h2, h3⟩ := foldlM_deleteVersion_sizes batchSize hC pfx l _ s' hrest hlt he
        refine ⟨h1, h2, ?_⟩
        have h3' : s'.emitted.length * batchSize + s'.batch.length =
            s.emitted.length * batchSize + (s.batch.length + 1) + l.length := by
          simpa using h3
        have hlen : (v :: l).length = l.length + 1 := by simp
        omega

lemma foldlM_deleteVersion_ok (batchSize : Nat) (pfx : String) :
    ∀ (l : List objectVersion) (s : AccState),
      (∀ v ∈ l, pfx = "" ∨ hasPfx v.Key pfx = true) →
      ∃ s', l.foldlM (deleteVersion batchSize pfx) s = .ok s'
  | [], s, _ => ⟨s, rfl⟩
  | v :: l, s, h => by
      obtain ⟨s', hs'⟩ := foldlM_deleteVersion_ok batchSize pfx l
        (observeOk batchSize s v) (fun u hu => h u (List.mem_cons_of_mem v hu))
      refine ⟨s', ?_⟩
      rw [List.foldlM_cons,
        deleteVersion_ok_of_pass batchSize pfx s v (h v (List.mem_cons_self v l))]
      exact hs'

lemma foldlM_deleteVersion_zero (pfx : String) :
    ∀ (l : List objectVersion) (s s' : AccState),
      l.foldlM (deleteVersion 0 pfx) s = .ok s' →
      s'.emitted = s.emitted ∧ s'.batch = s.batch ++ l
  | [], s, s', h => by
      cases h
      simp
  | v :: l, s, s', h => by
      obtain ⟨-, hrest⟩ := step_of_foldlM_ok 0 pfx s s' v l h
      have hstep : observeOk 0 s v =
          { batch := s.batch ++ [v], numObjects := s.numObjects + 1,
            emitted := s.emitted } := by
        unfold observeOk
        simp
      rw [hstep] at hrest
      obtain ⟨h1, h2⟩ := foldlM_deleteVersion_zero pfx l _ s' hrest
      exact ⟨h1, by rw [h2]; simp⟩

end AccumulatorLemmas

section RunLemmas

lemma runListing_flatten (batchSize : Nat) (pfx : String)
    (entries : List objectVersion) (s : AccState)
    (h : runListing batchSize pfx entries = .ok s) :
    s.emitted.flatten ++ s.batch = entries ∧ s.numObjects = entries.length := by
  have := foldlM_deleteVersion_flatten batchSize pfx entries initAcc s h
  simpa [initAcc] using this

lemma runListing_sizes (batchSize : Nat) (hC : 0 < batchSize) (pfx : String)
    (entries : List objectVersion) (s : AccState)
    (h : runListing batchSize pfx entries = .ok s) :
    s.batch.length < batchSize ∧ (∀ b ∈ s.emitted, b.length = batchSize) ∧
      s.emitted.length * batchSize + s.batch.length = entries.length := by
  have := foldlM_deleteVersion_sizes batchSize hC pfx entries initAcc s h
    (by simpa [initAcc] using hC) (by simp [initAcc])
  simpa [initAcc] using this

lemma runListing_divmod (batchSize : Nat) (hC : 0 < batchSize) (pfx : String)
    (entries : List objectVersion) (s : AccState)
    (h : runListing batchSize pfx entries = .ok s) :
    s.emitted.length = entries.length / batchSize ∧
      s.batch.length = entries.length % batchSize := by
  obtain ⟨hb, -, heq⟩ := runListing_sizes batchSize hC pfx entries s h
  constructor
  · rw [← heq, Nat.add_comm, Nat.add_mul_div_right _ _ hC,
      Nat.div_eq_of_lt hb, Nat.zero_add]
  · rw [← heq, Nat.add_comm, Nat.add_mul_mod_self_right, Nat.mod_eq_of_lt hb]

lemma emittedBatches_of_runListing (batchSize : Nat) (pfx : String)
    (entries : List objectVersion) (bs : List (List objectVersion))
    (h : emittedBatches batchSize pfx entries = .ok bs) :
    ∃ s, runListing batchSize pfx entries = .ok s ∧
      bs = if 0 < s.batch.length then s.emitted ++ [s.batch] else s.emitted := by
  unfold emittedBatches at h
  cases hr : runListing batchSize pfx entries with
  | error e =>
      rw [hr] at h
      exact absurd h (by simp [Except.map])
  | ok s =>
      rw [hr] at h
      simp only [Except.map] at h
      exact ⟨s, rfl, (Except.ok.injEq _ _ ▸ h).symm⟩

lemma emittedBatches_flatten (batchSize : Nat) (pfx : String)
    (entries : List objectVersion) (bs : List (List objectVersion))
    (h : emittedBatches batchSize pfx entries = .ok bs) :
    bs.flatten = entries := by
  obtain ⟨s, hr, hbs⟩ := emittedBatches_of_runListing batchSize pfx entries bs h
  obtain ⟨hflat, -⟩ := runListing_flatten batchSize pfx entries s hr
  subst hbs
  by_cases h0 : 0 < s.batch.length
  · rw [if_pos h0]
    simpa using hflat
  · rw [if_neg h0]
    have hnil : s.batch = [] := List.length_eq_zero.mp (by omega)
    rw [hnil, List.append_nil] at hflat
    exact hflat

lemma ceil_div_eq (C : Nat) (hC : 0 < C) (N : Nat) :
    (N + C - 1) / C = N / C + (if N % C = 0 then 0 else 1) := by
  have hdm : C * (N / C) + N % C = N := Nat.div_add_mod N C
  have hr : N % C < C := Nat.mod_lt _ hC
  by_cases h0 : N % C = 0
  · have h1 : N + C - 1 = C * (N / C) + (C - 1) := by omega
    have h2 : (C * (N / C) + (C - 1)) / C = N / C + (C - 1) / C :=
      Nat.mul_add_div hC _ _
    have h3 : (C - 1) / C = 0 := Nat.div_eq_of_lt (by omega)
    rw [if_pos h0, h1, h2, h3]
  · have hmul : C * (N / C + 1) = C * (N / C) + C := by ring
    have h1 : N + C - 1 = C * (N / C + 1) + (N % C - 1) := by omega
    have h2 : (C * (N / C + 1) + (N % C - 1)) / C = N / C + 1 + (N % C - 1) / C :=
      Nat.mul_add_div hC _ _
    have h3 : (N % C - 1) / C = 0 := Nat.div_eq_of_lt (by omega)
    rw [if_neg h0, h1, h2, h3]

end RunLemmas

/-- C1: for every input sequence of `N` entries and configured capacity `C`
(a positive integer per the data model), the accumulator plus final flush
emits exactly `⌈N/C⌉` batches (zero when `N = 0`); every batch before the
last has size exactly `C`; the last batch has size `N % C`, or `C` when `N`
is a positive multiple of `C`; and no emitted batch is empty. -/
theorem C1_batch_shape (C : Nat) (hC : 0 < C) (pfx : String)
    (entries : List objectVersion) (bs : List (List objectVersion))
    (hok : emittedBatches C pfx entries = .ok bs) :
    bs.length = (entries.length + C - 1) / C ∧
      (∀ b ∈ bs.dropLast, b.length = C) ∧
      (∀ b, bs.getLast? = some b →
        b.length = if entries.length % C = 0 then C else entries.length % C) ∧
      (entries.length = 0 → bs = []) ∧
      (∀ b ∈ bs, 0 < b.length) := by
  obtain ⟨s, hr, hbs⟩ := emittedBatches_of_runListing C pfx entries bs hok
  obtain ⟨hlt, hall, -⟩ := runListing_sizes C hC pfx entries s hr
  obtain ⟨hdiv, hmod⟩ := runListing_divmod C hC pfx entries s hr
  rw [ceil_div_eq C hC entries.length]
  by_cases h0 : 0 < s.batch.length
  · rw [if_pos h0] at hbs
    have hmod0 : entries.length % C ≠ 0 := by omega
    subst hbs
    refine ⟨?_, ?_, ?_, ?_, ?_⟩
    · rw [if_neg hmod0]
      simp [hdiv]
    · intro b hb
      rw [List.dropLast_concat] at hb
      exact hall b hb
    · intro b hb
      rw [List.getLast?_concat] at hb
      rw [if_neg hmod0, ← hmod]
      cases hb
      rfl
    · intro habs
      have : entries.length % C = 0 := by rw [habs]; simp
      exact absurd this hmod0
    · intro b hb
      rcases List.mem_append.mp hb with hb | hb
      · have := hall b hb
        omega
      · simp only [List.mem_singleton] at hb
        subst hb
        exact h0
  · rw [if_neg h0] at hbs
    have hmod0 : entries.length % C = 0 := by omega
    subst hbs
    refine ⟨?_, ?_, ?_, ?_, ?_⟩
    · rw [if_pos hmod0]
      simp [hdiv]
    · intro b hb
      exact hall b (List.mem_of_mem_dropLast hb)
    · intro b hb
      rw [if_pos hmod0]
      exact hall b (List.mem_of_mem_getLast? hb)
    · intro hlen0
      have : s.emitted.length = 0 := by
        rw [hdiv, hlen0]
        simp
      exact List.length_eq_zero.mp this
    · intro b hb
      have := hall b hb
      omega

/-- Witness for C1: capacity 2 over three entries yields
`⌈3/2⌉ = 2` batches. -/
theorem C1_batch_shape_witness :
    ([[va, vb], [vc]] : List (List objectVersion)).length =
      (([va, vb, vc] : List objectVersion).length + 2 - 1) / 2 :=
  (C1_batch_shape 2 (by decide) "" [va, vb, vc] [[va, vb], [vc]] rfl).1

/-- C3: the concatenation of the emitted batches, in dispatch order, is the
input sequence in listing order (per page: versions first, then delete
markers); hence the batch sizes sum to `N`, and for a duplicate-free listing
no entry occurs in two batches. -/
theorem C3_concat_is_input (C : Nat) (pfx : String) (pages : List Page)
    (bs : List (List objectVersion))
    (hok : emittedBatches C pfx (listingOrder pages) = .ok bs) :
    bs.flatten = listingOrder pages ∧
      (bs.map List.length).sum = (listingOrder pages).length ∧
      ((listingOrder pages).Nodup → bs.Pairwise List.Disjoint) := by
  have hflat := emittedBatches_flatten C pfx (listingOrder pages) bs hok
  refine ⟨hflat, ?_, ?_⟩
  · rw [← hflat]
    exact (List.length_flatten bs).symm
  · intro hnd
    rw [← hflat] at hnd
    exact (List.nodup_flatten.mp hnd).2

/-- Witness for C3: one page holding versions `[va, vb]` and marker `[vc]`,
capacity 2: the two batches concatenate back to the listed sequence. -/
theorem C3_concat_is_input_witness :
    ([[va, vb], [vc]] : List (List objectVersion)).flatten =
      listingOrder [{ Versions := [va, vb], DeleteMarkers := [vc] }] :=
  (C3_concat_is_input 2 "" [{ Versions := [va, vb], DeleteMarkers := [vc] }]
    [[va, vb], [vc]] rfl).1

section AggregatorLemmas

lemma aggregate_foldl (rs : List deleteBatchResult) :
    ∀ p : Nat × Nat,
      rs.foldl (fun t r => (t.1 + r.BatchSize, t.2 + r.ErrorCount)) p =
        (p.1 + (rs.map deleteBatchResult.BatchSize).sum,
          p.2 + (rs.map deleteBatchResult.ErrorCount).sum) := by
  induction rs with
  | nil => intro p; simp
  | cons r rs ih =>
      intro p
      rw [List.foldl_cons, ih]
      simp [Nat.add_assoc]

lemma aggregate_eq (rs : List deleteBatchResult) :
    aggregate rs = ((rs.map deleteBatchResult.BatchSize).sum,
      (rs.map deleteBatchResult.ErrorCount).sum) := by
  unfold aggregate
  rw [aggregate_foldl]
  simp

lemma deleteObjectVersions_ok (api : DeleteParam → Except String (List String))
    (b : List objectVersion) (r : deleteBatchResult)
    (h : deleteObjectVersions api b = .ok r) :
    r = { BatchSize := b.length, ErrorCount := itemErrors api b } := by
  unfold deleteObjectVersions at h
  unfold itemErrors
  cases happ : api (buildDeleteParam b) with
  | error e => rw [happ] at h; cases h
  | ok es => rw [happ] at h; cases h; rfl

lemma dispatchAll_eq (api : DeleteParam → Except String (List String)) :
    ∀ (bs : List (List objectVersion)) (rs : List deleteBatchResult),
      dispatchAll api bs = .ok rs →
      rs = bs.map fun b => { BatchSize := b.length, ErrorCount := itemErrors api b }
  | [], rs, h => by
      cases h
      rfl
  | b :: bs, rs, h => by
      unfold dispatchAll at h
      cases hd : deleteObjectVersions api b with
      | error e => rw [hd] at h; cases h
      | ok r =>
          rw [hd] at h
          cases hrest : dispatchAll api bs with
          | error e => rw [hrest] at h; cases h
          | ok rs' =>
              rw [hrest] at h
              cases h
              rw [List.map_cons, ← deleteObjectVersions_ok api b r hd,
                ← dispatchAll_eq api bs rs' hrest]

end AggregatorLemmas

/-- C2: for a run that reaches the final print (listing, flush and every
delete request succeed), the aggregator's final processed total — the sum of
`BatchSize` over the received results, in any arrival order — equals the
orchestrator's `numObjects` counter, which is exactly the number of entries
fed to the accumulator. -/
theorem C2_processed_equals_observed (C : Nat) (pfx : String)
    (api : DeleteParam → Except String (List String))
    (entries : List objectVersion) (s : AccState)
    (bs : List (List objectVersion)) (rs0 rs : List deleteBatchResult)
    (hlist : runListing C pfx entries = .ok s)
    (hbatch : emittedBatches C pfx entries = .ok bs)
    (hdisp : dispatchAll api bs = .ok rs0)
    (hperm : rs.Perm rs0) :
    (aggregate rs).1 = s.numObjects ∧ s.numObjects = entries.length := by
  obtain ⟨-, hnum⟩ := runListing_flatten C pfx entries s hlist
  have hflat := emittedBatches_flatten C pfx entries bs hbatch
  have hrs0 := dispatchAll_eq api bs rs0 hdisp
  refine ⟨?_, hnum⟩
  rw [aggregate_eq]
  show (rs.map deleteBatchResult.BatchSize).sum = s.numObjects
  calc (rs.map deleteBatchResult.BatchSize).sum
      = (rs0.map deleteBatchResult.BatchSize).sum :=
        List.Perm.sum_eq (hperm.map _)
    _ = (bs.map List.length).sum := by
        rw [hrs0, List.map_map]
        rfl
    _ = bs.flatten.length := (List.length_flatten bs).symm
    _ = entries.length := by rw [hflat]
    _ = s.numObjects := hnum.symm

/-- Witness for C2: three entries at capacity 2 give dispatched sizes 2 and
1, and the aggregator's processed total 3 equals `numObjects`. -/
theorem C2_processed_equals_observed_witness :
    (aggregate [{ BatchSize := 2, ErrorCount := 0 },
      { BatchSize := 1, ErrorCount := 0 }]).1 =
      (AccState.mk [vc] 3 [[va, vb]]).numObjects :=
  (C2_processed_equals_observed 2 "" apiNoErrors [va, vb, vc]
    (AccState.mk [vc] 3 [[va, vb]]) [[va, vb], [vc]]
    [{ BatchSize := 2, ErrorCount := 0 }, { BatchSize := 1, ErrorCount := 0 }]
    [{ BatchSize := 2, ErrorCount := 0 }, { BatchSize := 1, ErrorCount := 0 }]
    rfl rfl rfl (List.Perm.refl _)).1

/-- C4: for a run without a fatal error, the aggregator's final errors total
— the sum of `ErrorCount` over the received results, in any arrival order —
equals the sum over all dispatched requests of the per-item errors the
collaborator reported; each worker's `ErrorCount` is exactly that request's
per-item error count. -/
theorem C4_errors_total (api : DeleteParam → Except String (List String))
    (bs : List (List objectVersion)) (rs0 rs : List deleteBatchResult)
    (hdisp : dispatchAll api bs = .ok rs0)
    (hperm : rs.Perm rs0) :
    (aggregate rs).2 = (bs.map (itemErrors api)).sum ∧
      rs0.map deleteBatchResult.ErrorCount = bs.map (itemErrors api) := by
  have hrs0 := dispatchAll_eq api bs rs0 hdisp
  have h2 : rs0.map deleteBatchResult.ErrorCount = bs.map (itemErrors api) := by
    rw [hrs0, List.map_map]
    rfl
  refine ⟨?_, h2⟩
  rw [aggregate_eq]
  show (rs.map deleteBatchResult.ErrorCount).sum = _
  rw [List.Perm.sum_eq (hperm.map _), h2]

/-- A collaborator that completes every request but reports every item of
the request as failed (used by witness statements). -/
def apiAllFail : DeleteParam → Except String (List String) :=
  fun p => .ok (p.Objects.map fun o => o.Key)

/-- Witness for C4: a collaborator failing every item over batches of sizes
2 and 1 yields an aggregated errors total of 3. -/
theorem C4_errors_total_witness :
    (aggregate [{ BatchSize := 2, ErrorCount := 2 },
      { BatchSize := 1, ErrorCount := 1 }]).2 =
      (([[va, vb], [vc]] : List (List objectVersion)).map (itemErrors apiAllFail)).sum :=
  (C4_errors_total apiAllFail [[va, vb], [vc]]
    [{ BatchSize := 2, ErrorCount := 2 }, { BatchSize := 1, ErrorCount := 1 }]
    [{ BatchSize := 2, ErrorCount := 2 }, { BatchSize := 1, ErrorCount := 1 }]
    rfl (List.Perm.refl _)).1

/-- An entry outside the `"logs/"` scope, used by witness statements. -/
def vd : objectVersion := { Key := "c/d", VersionId := "9" }

/-- C5: with a non-empty normalized scope, a listed entry whose key does not
start with it fails the run fatally with the scope-violation message: the
step errors for every accumulator state, before the entry is appended or
counted, and the whole run yields that error whatever entries follow. -/
theorem C5_scope_violation (C : Nat) (pfx : String) (hp : pfx ≠ "")
    (pre post : List objectVersion) (v : objectVersion)
    (hpre : ∀ u ∈ pre, hasPfx u.Key pfx = true)
    (hv : hasPfx v.Key pfx = false) :
    (∀ s : AccState, deleteVersion C pfx s v =
        .error ("encountered object without requested prefix: " ++ v.Key)) ∧
      runListing C pfx (pre ++ v :: post) =
        .error ("encountered object without requested prefix: " ++ v.Key) := by
  have hstep : ∀ s : AccState, deleteVersion C pfx s v =
      .error ("encountered object without requested prefix: " ++ v.Key) := by
    intro s
    unfold deleteVersion
    rw [if_pos ⟨hp, hv⟩]
  refine ⟨hstep, ?_⟩
  unfold runListing
  rw [List.foldlM_append]
  obtain ⟨s', hs'⟩ := foldlM_deleteVersion_ok C pfx pre initAcc
    (fun u hu => Or.inr (hpre u hu))
  rw [hs']
  show (v :: post).foldlM (deleteVersion C pfx) s' = _
  rw [List.foldlM_cons, hstep s']
  rfl

/-- Witness for C5: under scope `"logs/"`, the entry with key `"c/d"` aborts
the whole run with the scope-violation error. -/
theorem C5_scope_violation_witness :
    runListing 2 "logs/" ([va] ++ vd :: [vb]) =
      .error ("encountered object without requested prefix: " ++ vd.Key) :=
  (C5_scope_violation 2 "logs/" (by decide) [va] [vb] vd (by decide) (by decide)).2

/-- C6: the worker issues exactly one request naming every (key, versionId)
pair of its batch in order, with per-success reporting suppressed (`Quiet`);
a transport failure is fatal with no retry; a completed request yields
exactly one result whose `BatchSize` is the batch's entry count and whose
`ErrorCount` is the number of per-item failures reported. -/
theorem C6_worker_contract (api : DeleteParam → Except String (List String))
    (b : List objectVersion) :
    (buildDeleteParam b).Objects =
        (b.map fun v => ({ Key := v.Key, VersionId := v.VersionId } : ObjectIdentifier)) ∧
      (buildDeleteParam b).Quiet = true ∧
      (∀ e, api (buildDeleteParam b) = .error e →
        deleteObjectVersions api b = .error ("failed to delete objects: " ++ e)) ∧
      (∀ es, api (buildDeleteParam b) = .ok es →
        deleteObjectVersions api b =
          .ok { BatchSize := b.length, ErrorCount := es.length }) := by
  refine ⟨rfl, rfl, ?_, ?_⟩
  · intro e he
    unfold deleteObjectVersions
    rw [he]
  · intro es hes
    unfold deleteObjectVersions
    rw [hes]

/-- Witness for C6: a one-entry batch whose request completes with one
per-item failure produces the single result `⟨1, 1⟩`. -/
theorem C6_worker_contract_witness :
    deleteObjectVersions apiAllFail [va] =
      .ok { BatchSize := 1, ErrorCount := 1 } :=
  (C6_worker_contract apiAllFail [va]).2.2.2 ["logs/a"] rfl

/-- C7: a run whose listing yields zero matching entries dispatches no
worker, receives no results, prints `total number of objects: 0`, and
finishes successfully. -/
theorem C7_empty_listing (api : DeleteParam → Except String (List String))
    (C : Nat) (pfx : String) (pages : List Page)
    (hempty : listingOrder pages = []) :
    runMain api C pfx pages =
      .ok { batches := [], results := [], numObjects := 0,
            finalLine := "total number of objects: 0" } := by
  unfold runMain
  rw [hempty]
  rfl

/-- Witness for C7: one empty listing page gives a successful run with no
dispatch and the zero total line. -/
theorem C7_empty_listing_witness :
    runMain apiNoErrors 1000 "" [{ Versions := [], DeleteMarkers := [] }] =
      .ok { batches := [], results := [], numObjects := 0,
            finalLine := "total number of objects: 0" } :=
  C7_empty_listing apiNoErrors 1000 "" [{ Versions := [], DeleteMarkers := [] }] rfl

section TrimLemmas

lemma head?_dropWhile_slash :
    ∀ (l : List Char) (c : Char),
      ((l.dropWhile fun x => x = '/').head? = some c) → c ≠ '/'
  | [], c, h => by cases h
  | x :: l, c, h => by
      by_cases hx : x = '/'
      · rw [List.dropWhile_cons_of_pos (by simpa using hx)] at h
        exact head?_dropWhile_slash l c h
      · rw [List.dropWhile_cons_of_neg (by simpa using hx)] at h
        cases h
        exact hx

lemma takeWhile_slash_replicate (l : List Char) :
    l.takeWhile (fun c => c = '/') =
      List.replicate (l.takeWhile (fun c => c = '/')).length '/' := by
  apply List.eq_replicate_of_mem
  intro b hb
  have h2 := List.mem_takeWhile_imp (p := fun c => decide (c = '/')) hb
  simpa using h2

lemma rev_split (p : Char → Bool) (d : List Char) :
    d = (d.reverse.dropWhile p).reverse ++ (d.reverse.takeWhile p).reverse := by
  calc d = d.reverse.reverse := (List.reverse_reverse d).symm
    _ = (d.reverse.takeWhile p ++ d.reverse.dropWhile p).reverse := by
        rw [List.takeWhile_append_dropWhile]
    _ = (d.reverse.dropWhile p).reverse ++ (d.reverse.takeWhile p).reverse := by
        rw [List.reverse_append]

lemma trimSlashes_decomp (l : List Char) :
    ∃ a b, l = List.replicate a '/' ++ trimSlashes l ++ List.replicate b '/' := by
  refine ⟨(l.takeWhile (fun c => c = '/')).length,
    ((l.dropWhile (fun c => c = '/')).reverse.takeWhile (fun c => c = '/')).length,
    ?_⟩
  have ht2 := takeWhile_slash_replicate (l.dropWhile (fun c => c = '/')).reverse
  have ht2rev : ((l.dropWhile (fun c => c = '/')).reverse.takeWhile
        (fun c => c = '/')).reverse =
      List.replicate
        ((l.dropWhile (fun c => c = '/')).reverse.takeWhile (fun c => c = '/')).length
        '/' := by
    conv_lhs => rw [ht2]
    rw [List.reverse_replicate]
  unfold trimSlashes
  rw [List.append_assoc]
  conv_lhs =>
    rw [← List.takeWhile_append_dropWhile (p := fun c => c = '/') (l := l)]
  congr 1
  · exact takeWhile_slash_replicate l
  · calc l.dropWhile (fun c => c = '/')
        = ((l.dropWhile (fun c => c = '/')).reverse.dropWhile
            (fun c => c = '/')).reverse ++
          ((l.dropWhile (fun c => c = '/')).reverse.takeWhile
            (fun c => c = '/')).reverse :=
          rev_split (fun c => c = '/') (l.dropWhile (fun c => c = '/'))
      _ = ((l.dropWhile (fun c => c = '/')).reverse.dropWhile
            (fun c => c = '/')).reverse ++
          List.replicate
            ((l.dropWhile (fun c => c = '/')).reverse.takeWhile
              (fun c => c = '/')).length '/' := by
          rw [ht2rev]

lemma trimSlashes_getLast (l : List Char) (c : Char)
    (h : (trimSlashes l).getLast? = some c) : c ≠ '/' := by
  unfold trimSlashes at h
  rw [List.getLast?_reverse] at h
  exact head?_dropWhile_slash _ c h

lemma trimSlashes_head (l : List Char) (c : Char)
    (h : (trimSlashes l).head? = some c) : c ≠ '/' := by
  unfold trimSlashes at h
  rw [List.head?_reverse] at h
  set d1 := l.dropWhile fun x => x = '/' with hd1
  set d2 := d1.reverse.dropWhile fun x => x = '/' with hd2
  have hne : d2 ≠ [] := by
    intro habs
    rw [habs] at h
    cases h
  obtain ⟨t, ht⟩ := List.dropWhile_suffix (l := d1.reverse) (fun x => x = '/')
  rw [← hd2] at ht
  have hlast : d1.reverse.getLast? = some c := by
    rw [← ht, List.getLast?_append_of_ne_nil t hne]
    exact h
  rw [List.getLast?_reverse] at hlast
  exact head?_dropWhile_slash l c hlast

end TrimLemmas

/-- C8: the scope that a successful `mainSetup` hands to the run (used for
listing and for the scope check) is obtained from the `-prefix` flag value
by removing all leading and all trailing `'/'` characters and, when the
remainder is non-empty, appending exactly one `'/'` (the remainder itself
neither starts nor ends with `'/'`). -/
theorem C8_scope_normalization (cfg : Config) (pfx : String) (C : Nat)
    (hok : mainSetup cfg = .ok (pfx, C)) :
    ∃ a b core,
      cfg.fPfxFlag.data = List.replicate a '/' ++ core ++ List.replicate b '/' ∧
        (∀ c, core.head? = some c → c ≠ '/') ∧
        (∀ c, core.getLast? = some c → c ≠ '/') ∧
        pfx = (if core = [] then "" else String.mk (core ++ ['/'])) := by
  have hpfx : pfx = normalizePfx cfg.fPfxFlag := by
    unfold mainSetup at hok
    by_cases h1 : cfg.fBucket = ""
    · rw [if_pos h1] at hok
      cases hok
    · rw [if_neg h1] at hok
      by_cases h2 : goMaxInt < cfg.fBatchSize
      · rw [if_pos h2] at hok
        cases hok
      · rw [if_neg h2] at hok
        have := (Except.ok.injEq _ _ ▸ hok : (normalizePfx cfg.fPfxFlag, cfg.fBatchSize) = (pfx, C))
        exact (Prod.mk.injEq _ _ _ _ ▸ this).1.symm
  obtain ⟨a, b, hdecomp⟩ := trimSlashes_decomp cfg.fPfxFlag.data
  refine ⟨a, b, trimSlashes cfg.fPfxFlag.data, hdecomp,
    trimSlashes_head cfg.fPfxFlag.data,
    trimSlashes_getLast cfg.fPfxFlag.data, ?_⟩
  rw [hpfx]
  unfold normalizePfx
  rfl

/-- Witness for C8: the flag value `"//a/b//"` normalizes to the scope
`"a/b/"`. -/
theorem C8_scope_normalization_witness :
    ∃ a b core,
      (Config.mk "//a/b//" "bucket" 1000 "eu-west-1").fPfxFlag.data =
        List.replicate a '/' ++ core ++ List.replicate b '/' ∧
        (∀ c, core.head? = some c → c ≠ '/') ∧
        (∀ c, core.getLast? = some c → c ≠ '/') ∧
        "a/b/" = (if core = [] then "" else String.mk (core ++ ['/'])) :=
  C8_scope_normalization (Config.mk "//a/b//" "bucket" 1000 "eu-west-1")
    "a/b/" 1000 rfl

/-- C9: `-batch 0` is accepted by the setup checks (only values above
`math.MaxInt` are rejected); with capacity 0 no batch ever seals during
listing, because a batch's length right after an append is at least 1 and so
never equals 0; and when the listing is non-empty all entries are dispatched
as one final flush batch. -/
theorem C9_batch_zero (p bkt r : String) (hb : bkt ≠ "")
    (pfx : String) (entries : List objectVersion) :
    mainSetup (Config.mk p bkt 0 r) = .ok (normalizePfx p, 0) ∧
      (∀ m, goMaxInt < m →
        mainSetup (Config.mk p bkt m r) = .error "illegal batch size") ∧
      (∀ s v, (observeOk 0 s v).batch.length = s.batch.length + 1 ∧
        (observeOk 0 s v).emitted = s.emitted) ∧
      (∀ s, runListing 0 pfx entries = .ok s →
        s.emitted = [] ∧ s.batch = entries) ∧
      (entries ≠ [] → ∀ bs, emittedBatches 0 pfx entries = .ok bs →
        bs = [entries]) := by
  refine ⟨?_, ?_, ?_, ?_, ?_⟩
  · unfold mainSetup
    rw [if_neg hb, if_neg (by simp)]
  · intro m hm
    unfold mainSetup
    rw [if_neg hb, if_pos hm]
  · intro s v
    unfold observeOk
    simp
  · intro s hs
    have := foldlM_deleteVersion_zero pfx entries initAcc s hs
    simpa [initAcc] using this
  · intro hne bs hbs
    obtain ⟨s, hr, hbseq⟩ := emittedBatches_of_runListing 0 pfx entries bs hbs
    obtain ⟨hemit, hbatch⟩ := by
      have := foldlM_deleteVersion_zero pfx entries initAcc s hr
      simpa [initAcc] using this
    rw [hemit, hbatch] at hbseq
    rw [hbseq, if_pos (by simpa using List.length_pos_iff_ne_nil.mpr hne)]
    simp

/-- Witness for C9: the configuration with `-batch 0` and a non-empty bucket
passes setup. -/
theorem C9_batch_zero_witness :
    mainSetup (Config.mk "x" "b" 0 "r") = .ok (normalizePfx "x", 0) :=
  (C9_batch_zero "x" "b" "r" (by decide) "" []).1

/-- C10: a `-prefix` flag value consisting solely of `'/'` characters
normalizes to the empty scope; the scope check is then skipped for every
listed entry (the step accepts every key), and setup hands the empty scope
to the listing, so the run targets the whole bucket. -/
theorem C10_slashes_only (p : String) (hp : ∀ c ∈ p.data, c = '/')
    (bkt r : String) (hb : bkt ≠ "") (n : Nat) (hn : n ≤ goMaxInt) :
    normalizePfx p = "" ∧
      (∀ C s v, deleteVersion C "" s v = .ok (observeOk C s v)) ∧
      mainSetup (Config.mk p bkt n r) = .ok ("", n) := by
  have hdrop : p.data.dropWhile (fun c => c = '/') = [] :=
    List.dropWhile_eq_nil_iff.mpr fun x hx => by simpa using hp x hx
  have htrim : trimSlashes p.data = [] := by
    unfold trimSlashes
    rw [hdrop]
    rfl
  have hnorm : normalizePfx p = "" := by
    unfold normalizePfx
    rw [htrim]
    rfl
  refine ⟨hnorm, ?_, ?_⟩
  · intro C s v
    unfold deleteVersion
    rw [if_neg (by simp)]
  · unfold mainSetup
    rw [if_neg hb, if_neg (Nat.not_lt.mpr hn), hnorm]

/-- Witness for C10: the flag value `"///"` normalizes to the empty scope
and any key passes the step. -/
theorem C10_slashes_only_witness :
    normalizePfx "///" = "" :=
  (C10_slashes_only "///" (by decide) "b" "r" (by decide) 1000 (by decide)).1
